import Mathlib

/-!
Verification of the deferred-host-operation core of the xgl Vulkan driver
(`icd/api/include/vk_deferred_operation.h`).

The repository snapshot contains the class declaration and data layout
(`DeferredWorkload`, the state variants `SimpleState`, `AccelBuildState`,
`RayTracingPipelineCreateState`, and the inline accessors), but not the
translation unit with the method bodies (`Join`, `ExecuteWorkload`,
`GenerateWorkloads`, `Destroy`, ...).  Data types below are embedded from the
header; the behaviour of the missing methods is modelled from the
specification's description of the join protocol (doc comments on those
definitions start with "Modelled from the spec:").

Concurrency is embedded as an interleaving semantics: every atomic action the
specification names (atomic fetch-and-increment claim, one `Execute` call,
atomic completed-counter increment, the compare-and-swap on the Simple
`joined` flag) is one step of a transition relation; thread-local state
between a thread's atomic actions is a pending token, so a trace of the
relation corresponds exactly to an interleaving of any number of caller
threads.  Ghost fields (`executed` lists, invocation counters) record the
events the claims quantify over.
-/

namespace Vk

/-- `UINT_MAX`: the sentinel stored in `DeferredWorkload::totalInstances`
while the actual instance count is not yet known (header line 66). -/
def UINT_MAX : Nat := 2 ^ 32 - 1

/-- Result codes used by the deferred-operation interface: success,
the not-yet-ready result of `GetOperationResult` before completion,
allocation failure, the destroy-while-joined failure, the "more work
remains, call again" join status, the memory-map failure recorded by the
acceleration-structure build variant, and opaque domain failure codes. -/
inductive VkStatus where
  | success
  | notReady
  | outOfHostMemory
  | inUse
  | threadIdle
  | memoryMapFailed
  | errCode (c : Nat)
deriving DecidableEq

/-- Embedding of `struct DeferredWorkload` (header lines 62-71).
`pPayloads` and `Execute` are opaque caller-supplied data; in their place the
ghost field `executed` records, in order, the instance indices to which the
workload's `Execute` function has been applied.  `eventSet` embeds
`Util::Event event` as the flag it carries. -/
structure DeferredWorkload where
  nextInstance : Nat
  completedInstances : Nat
  totalInstances : Nat
  maxInstances : Nat
  executed : List Nat
  eventSet : Bool
deriving DecidableEq

/-- Modelled from the spec: the bound below which `ExecuteWorkload` may claim
a fresh instance index - `totalInstances` once the count is resolved,
`maxInstances` while it is still the `UINT_MAX` sentinel. -/
def claimLimit (w : DeferredWorkload) : Nat :=
  if w.totalInstances = UINT_MAX then w.maxInstances else w.totalInstances

/-- The workload's exact instance count is known (no longer the sentinel). -/
def DeferredWorkload.Resolved (w : DeferredWorkload) : Prop :=
  w.totalInstances ≠ UINT_MAX

instance (w : DeferredWorkload) : Decidable w.Resolved := by
  unfold DeferredWorkload.Resolved
  infer_instance

/-- Modelled from the spec: a workload is complete when its exact count is
resolved and every instance's completion has been counted. -/
def DeferredWorkload.IsComplete (w : DeferredWorkload) : Prop :=
  w.Resolved ∧ w.completedInstances = w.totalInstances

instance (w : DeferredWorkload) : Decidable w.IsComplete := by
  unfold DeferredWorkload.IsComplete
  infer_instance

/-- One workload together with the thread-local tokens of the callers that
are part-way through `DeferredHostOperation::ExecuteWorkload` on it:
`claimedPending` holds instance indices a thread has claimed (atomic
increment of `nextInstance`) but not yet acted on, `executedPending` holds
indices whose `Execute` call has returned but whose `completedInstances`
increment is still outstanding. -/
structure WorkloadSys where
  w : DeferredWorkload
  claimedPending : List Nat
  executedPending : List Nat
deriving DecidableEq

/-- Modelled from the spec: one atomic step of the missing
`DeferredHostOperation::ExecuteWorkload` body, taken by some caller thread
inside `Join`.
* `claim`: atomic fetch-and-increment of `nextInstance`, allowed while
  indices below the claim bound remain.
* `exec`: the thread holding a claimed index below the now-resolved
  `totalInstances` applies the workload's `Execute` function to its payload.
* `discard`: a claimed index at or beyond the now-resolved `totalInstances`
  is a no-op.
* `complete`: the atomic increment of `completedInstances` after an
  `Execute` call returns, signalling the completion event when the counter
  reaches `totalInstances`.
* `resolve`: the producer replaces the `UINT_MAX` sentinel by the actual
  instance count, at most `maxInstances`. -/
inductive WStep : WorkloadSys → WorkloadSys → Prop where
  | claim (s : WorkloadSys) (hg : s.w.nextInstance < claimLimit s.w) :
      WStep s ⟨{ s.w with nextInstance := s.w.nextInstance + 1 },
               s.w.nextInstance :: s.claimedPending, s.executedPending⟩
  | exec (s : WorkloadSys) (i : Nat) (hm : i ∈ s.claimedPending)
      (hres : s.w.Resolved) (hi : i < s.w.totalInstances) :
      WStep s ⟨{ s.w with executed := s.w.executed ++ [i] },
               s.claimedPending.erase i, i :: s.executedPending⟩
  | discard (s : WorkloadSys) (i : Nat) (hm : i ∈ s.claimedPending)
      (hres : s.w.Resolved) (hi : s.w.totalInstances ≤ i) :
      WStep s ⟨s.w, s.claimedPending.erase i, s.executedPending⟩
  | complete (s : WorkloadSys) (i : Nat) (hm : i ∈ s.executedPending) :
      WStep s ⟨{ s.w with
                 completedInstances := s.w.completedInstances + 1,
                 eventSet := if s.w.completedInstances + 1 = s.w.totalInstances then
                     true
                   else s.w.eventSet },
               s.claimedPending, s.executedPending.erase i⟩
  | resolve (s : WorkloadSys) (n : Nat) (hu : s.w.totalInstances = UINT_MAX)
      (hn : n ≤ s.w.maxInstances) (hne : n ≠ UINT_MAX) :
      WStep s ⟨{ s.w with totalInstances := n }, s.claimedPending, s.executedPending⟩

/-- A freshly generated workload: zeroed counters, count either already the
exact value or the `UINT_MAX` sentinel, no executions yet, event unsignalled. -/
def initWorkload (total maxI : Nat) : DeferredWorkload :=
  ⟨0, 0, total, maxI, [], false⟩

/-- Reachable workload states: any initial workload whose `maxInstances` fits
in 32 bits and whose `totalInstances` is either the sentinel or an exact
count at most `maxInstances`, closed under interleaved `ExecuteWorkload`
steps by any number of threads. -/
inductive WReach : WorkloadSys → Prop where
  | init (total maxI : Nat) (hmax : maxI ≤ UINT_MAX)
      (htot : total = UINT_MAX ∨ total ≤ maxI) :
      WReach ⟨initWorkload total maxI, [], []⟩
  | step (s s' : WorkloadSys) (h : WReach s) (hs : WStep s s') : WReach s'

/-- Inductive invariant of the workload join engine. -/
structure WInv (s : WorkloadSys) : Prop where
  next_le_max : s.w.nextInstance ≤ s.w.maxInstances
  max_le : s.w.maxInstances ≤ UINT_MAX
  total_le : s.w.totalInstances = UINT_MAX ∨ s.w.totalInstances ≤ s.w.maxInstances
  count_eq : s.w.completedInstances + s.executedPending.length = s.w.executed.length
  exec_lt : ∀ i ∈ s.w.executed, s.w.Resolved ∧ i < s.w.totalInstances
  nodup : (s.w.executed ++ s.claimedPending).Nodup
  lt_next : ∀ i ∈ s.w.executed ++ s.claimedPending, i < s.w.nextInstance

/-- Embedding of `struct SimpleState` (header lines 108-114).  The bound
function `pfnOperation`/`pArg` pair is opaque; `complete` is the
marks-the-operation-complete flag the spec's simple join protocol sets after
storing the result. -/
structure SimpleState where
  joined : Bool
  result : VkStatus
  complete : Bool
deriving DecidableEq

/-- A Simple operation under concurrent joins: the shared `SimpleState`,
the (fixed, opaque) value `fnResult` the bound function returns for its
argument, the ghost count `execCount` of invocations of the bound function,
and the number `claiming` of threads that won the claim and are still
executing the function. -/
structure SimpleSys where
  st : SimpleState
  fnResult : VkStatus
  execCount : Nat
  claiming : Nat
deriving DecidableEq

/-- Modelled from the spec: one atomic step of the missing
`DeferredHostOperation::SimpleCallback` join path.
* `claim`: the atomic compare-and-swap that flips `joined` from false to
  true; the winning thread proceeds to execute the bound function.
* `finish`: the winning thread's function call returns; its result is
  stored and the operation is marked complete.
A caller that observes `joined` already true returns immediately and does
not change the state, so it needs no step. -/
inductive SStep : SimpleSys → SimpleSys → Prop where
  | claim (s : SimpleSys) (h : s.st.joined = false) :
      SStep s ⟨{ s.st with joined := true }, s.fnResult, s.execCount, s.claiming + 1⟩
  | finish (s : SimpleSys) (h : 0 < s.claiming) :
      SStep s ⟨{ s.st with result := s.fnResult, complete := true },
               s.fnResult, s.execCount + 1, s.claiming - 1⟩

/-- Reachable Simple-operation states: `SetSimpleOperation` initializes the
flag cleared with result `r0` (not yet meaningful), then any interleaving of
join steps. -/
inductive SReach : SimpleSys → Prop where
  | init (fr r0 : VkStatus) : SReach ⟨⟨false, r0, false⟩, fr, 0, 0⟩
  | step (s s' : SimpleSys) (h : SReach s) (hs : SStep s s') : SReach s'

/-- Inductive invariant of the Simple join protocol. -/
structure SInv (s : SimpleSys) : Prop where
  not_joined : s.st.joined = false → s.claiming = 0 ∧ s.execCount = 0 ∧ s.st.complete = false
  at_most_one : s.claiming + s.execCount ≤ 1
  complete_result : s.st.complete = true → s.execCount = 1 ∧ s.st.result = s.fnResult
  complete_joined : s.st.complete = true → s.st.joined = true

/-- Embedding of `struct AccelBuildState` (header lines 80-89); the
caller-owned info arrays are kept only as their length `infoCount`. -/
structure AccelBuildState where
  nextPending : Nat
  completed : Nat
  failedMaps : Nat
  infoCount : Nat
deriving DecidableEq

/-- Modelled from the spec: an instance of the deferred
acceleration-structure build finishes, either mapping successfully or
recording one more failed map. -/
inductive AccelStep : AccelBuildState → AccelBuildState → Prop where
  | finish (a : AccelBuildState) (failed : Bool) (h : a.completed < a.infoCount) :
      AccelStep a { a with
        completed := a.completed + 1,
        failedMaps := if failed then a.failedMaps + 1 else a.failedMaps }

/-- Reachable acceleration-structure build states. -/
inductive AccelReach : AccelBuildState → Prop where
  | init (n : Nat) : AccelReach ⟨0, 0, 0, n⟩
  | step (a a' : AccelBuildState) (h : AccelReach a) (hs : AccelStep a a') : AccelReach a'

/-- Embedding of `struct RayTracingPipelineCreateState` (header lines
92-104); the caller-owned arrays are kept only as their length `infoCount`,
and `finalResult` holds a `VkStatus` (a `uint32_t` result code in the
header). -/
structure RayTracingPipelineCreateState where
  nextPending : Nat
  completed : Nat
  finalResult : VkStatus
  skipRemaining : Nat
  infoCount : Nat
deriving DecidableEq

/-- A ray-tracing pipeline creation in progress, with the ghost list
`failures` of the failure codes observed so far, in observation order. -/
structure RtSys where
  r : RayTracingPipelineCreateState
  failures : List VkStatus
deriving DecidableEq

/-- Modelled from the spec: an instance of the deferred pipeline creation
finishes; a failure stores its code into `finalResult` only if no earlier
failure was observed (first failure wins) and requests that remaining
instances be skipped. -/
inductive RtStep : RtSys → RtSys → Prop where
  | finishOk (s : RtSys) (h : s.r.completed < s.r.infoCount) :
      RtStep s ⟨{ s.r with completed := s.r.completed + 1 }, s.failures⟩
  | finishFail (s : RtSys) (code : VkStatus) (h : s.r.completed < s.r.infoCount)
      (hc : code ≠ .success) :
      RtStep s ⟨{ s.r with
                  completed := s.r.completed + 1,
                  finalResult := if s.r.finalResult = .success then code else s.r.finalResult,
                  skipRemaining := 1 },
                s.failures ++ [code]⟩

/-- Reachable ray-tracing pipeline creation states. -/
inductive RtReach : RtSys → Prop where
  | init (n : Nat) : RtReach ⟨⟨0, 0, .success, 0, n⟩, []⟩
  | step (s s' : RtSys) (h : RtReach s) (hs : RtStep s s') : RtReach s'

/-- Inductive invariant of the pipeline-creation failure aggregation. -/
structure RtInv (s : RtSys) : Prop where
  final_eq : s.r.finalResult = s.failures.headD .success
  no_success : ∀ c ∈ s.failures, c ≠ VkStatus.success
  completed_le : s.r.completed ≤ s.r.infoCount

/-- The `m_state` union together with the installed `m_pfnCallback`: which
of the mutually exclusive state variants is active (header lines 107-114,
172-179), `unassigned` being the default `UnusedCallback` configuration. -/
inductive OpState where
  | unassigned
  | simple (s : SimpleState)
  | accelBuild (a : AccelBuildState)
  | rtPipelineCreate (r : RayTracingPipelineCreateState)
deriving DecidableEq

/-- Embedding of `class DeferredHostOperation` (header lines 75-184):
the active state variant plus the owned workload array `m_pWorkloads`
(of length `m_workloadCount`). -/
structure DeferredHostOperation where
  state : OpState
  workloads : List DeferredWorkload
deriving DecidableEq

/-- `WorkloadCount()` (header line 153): the number of generated workloads. -/
def DeferredHostOperation.WorkloadCount (op : DeferredHostOperation) : Nat :=
  op.workloads.length

/-- `Workload(idx)` (header line 154): `return &m_pWorkloads[idx];` - raw
array indexing with no bounds check, so `idx < WorkloadCount()` is a
precondition, carried here as the proof argument `h`. -/
def DeferredHostOperation.Workload (op : DeferredHostOperation) (idx : Nat)
    (h : idx < op.WorkloadCount) : DeferredWorkload :=
  op.workloads.get ⟨idx, h⟩

/-- Modelled from the spec: the operation has transitioned to `Complete` -
an unassigned operation treats `Join` as immediately complete, a Simple
operation is complete once its flag is set, and the workload-bearing
variants are complete once all their instances have finished. -/
def opCompleteB (op : DeferredHostOperation) : Bool :=
  match op.state with
  | .unassigned => true
  | .simple s => s.complete
  | .accelBuild a => a.completed == a.infoCount
  | .rtPipelineCreate r => r.completed == r.infoCount

/-- Modelled from the spec: the counter effect of one sequential
claim-execute-complete round of `ExecuteWorkload` when no other thread
intervenes (used by the coarse, single-thread view of `Join`); while the
instance count is unresolved a claimed index cannot yet be executed, so the
round completes nothing. -/
def executeWorkload1 (w : DeferredWorkload) : DeferredWorkload :=
  if w.totalInstances = UINT_MAX then w
  else if w.nextInstance < w.totalInstances then
    { w with
      nextInstance := w.nextInstance + 1,
      executed := w.executed ++ [w.nextInstance],
      completedInstances := w.completedInstances + 1,
      eventSet := if w.completedInstances + 1 = w.totalInstances then true else w.eventSet }
  else w

/-- Modelled from the spec: one `Join` call as seen by a single thread
(spec 4.3).  On `Complete` it returns success immediately with no side
effects; an unassigned operation is a no-op returning success; a Simple
operation's first joiner claims the flag, runs the bound function (whose
result is the opaque parameter `fr`), stores the result and marks the
operation complete; a workload-bearing operation advances its workloads by
one round and reports whether more work remains. -/
def DeferredHostOperation.Join (fr : VkStatus) (op : DeferredHostOperation) :
    VkStatus × DeferredHostOperation :=
  if opCompleteB op then (.success, op)
  else
    match op.state with
    | .unassigned => (.success, op)
    | .simple s =>
        if s.joined then (.success, op)
        else (.success, { op with state := .simple ⟨true, fr, true⟩ })
    | .accelBuild _ =>
        (.threadIdle, { op with workloads := op.workloads.map executeWorkload1 })
    | .rtPipelineCreate _ =>
        (.threadIdle, { op with workloads := op.workloads.map executeWorkload1 })

/-- Modelled from the spec: per-workload estimate of useful extra joiners -
the remaining unclaimed instances, using `maxInstances` as the bound while
the exact count is unresolved. -/
def workloadRemaining (w : DeferredWorkload) : Nat :=
  if w.totalInstances = UINT_MAX then w.maxInstances - w.nextInstance
  else w.totalInstances - w.nextInstance

/-- The instance indices of a resolved workload not yet handed out to any
thread. -/
def unclaimedCount (w : DeferredWorkload) : Nat :=
  ((List.range w.totalInstances).filter (fun i => w.nextInstance ≤ i)).length

/-- Modelled from the spec: `GetMaxConcurrency` (spec 4.4) - 1 for a
not-yet-joined Simple operation and 0 for a joined one, the number of
remaining unclaimed instances across workloads for the workload-bearing
variants, 0 for the unassigned no-work configuration. -/
def DeferredHostOperation.GetMaxConcurrency (op : DeferredHostOperation) : Nat :=
  match op.state with
  | .unassigned => 0
  | .simple s => if s.joined then 0 else 1
  | .accelBuild _ => (op.workloads.map workloadRemaining).sum
  | .rtPipelineCreate _ => (op.workloads.map workloadRemaining).sum

/-- Modelled from the spec: `GetOperationResult` (spec 4.5) - not-ready
before completion; once complete, the Simple variant's stored result, and
for the failure-tracking variants success only if zero instances failed,
otherwise the aggregated failure code. -/
def DeferredHostOperation.GetOperationResult (op : DeferredHostOperation) : VkStatus :=
  match op.state with
  | .unassigned => .notReady
  | .simple s => if s.complete then s.result else .notReady
  | .accelBuild a =>
      if a.completed = a.infoCount then
        if a.failedMaps = 0 then .success else .memoryMapFailed
      else .notReady
  | .rtPipelineCreate r =>
      if r.completed = r.infoCount then r.finalResult else .notReady

/-- Modelled from the spec: `Destroy` (spec 4.1) - fails with the in-use
error, leaving the handle and its workloads intact, when `activeJoins`
threads (more than zero) are currently inside `Join`; otherwise releases
the workloads and the handle (`none`). -/
def DeferredHostOperation.Destroy (op : DeferredHostOperation) (activeJoins : Nat) :
    VkStatus × Option DeferredHostOperation :=
  if activeJoins ≠ 0 then (.inUse, some op) else (.success, none)

/-- A just-allocated workload slot, before the producer configures it. -/
def emptyWorkload : DeferredWorkload :=
  ⟨0, 0, 0, 0, [], false⟩

/-- Modelled from the spec: `GenerateWorkloads(count)` (spec 4.2) -
commit-or-rollback allocation of `count` workload slots; `allocOk` is the
outcome of the host allocation.  On failure the operation keeps its entire
prior state; on success it owns exactly `count` fresh slots. -/
def DeferredHostOperation.GenerateWorkloads (op : DeferredHostOperation)
    (count : Nat) (allocOk : Bool) : VkStatus × DeferredHostOperation :=
  if allocOk then (.success, { op with workloads := List.replicate count emptyWorkload })
  else (.outOfHostMemory, op)

/-! ## Theorems -/

/-- A duplicate-free list of naturals all below `n` has at most `n` elements. -/
theorem length_le_of_nodup_lt (l : List Nat) (n : Nat) (hn : l.Nodup)
    (hl : ∀ i ∈ l, i < n) : l.length ≤ n := by
  have hsub : l.toFinset ⊆ Finset.range n := by
    intro i hi
    rw [List.mem_toFinset] at hi
    exact Finset.mem_range.mpr (hl i hi)
  have hcard := Finset.card_le_card hsub
  rwa [List.toFinset_card_of_nodup hn, Finset.card_range] at hcard

/-- The claim bound never exceeds `maxInstances`. -/
theorem claimLimit_le_max (s : WorkloadSys) (inv : WInv s) :
    claimLimit s.w ≤ s.w.maxInstances := by
  unfold claimLimit
  rcases inv.total_le with h | h
  · simp [h]
  · split
    · exact le_rfl
    · exact h

/-- The invariant holds in any initial workload state. -/
theorem winv_init (total maxI : Nat) (hmax : maxI ≤ UINT_MAX)
    (htot : total = UINT_MAX ∨ total ≤ maxI) :
    WInv ⟨initWorkload total maxI, [], []⟩ := by
  refine ⟨Nat.zero_le _, hmax, htot, rfl, ?_, ?_, ?_⟩ <;> simp [initWorkload]

/-- Every `ExecuteWorkload` step preserves the workload invariant. -/
theorem winv_step (s s' : WorkloadSys) (inv : WInv s) (hs : WStep s s') : WInv s' := by
  cases hs with
  | claim hg =>
      refine ⟨?_, inv.max_le, inv.total_le, inv.count_eq, inv.exec_lt, ?_, ?_⟩
      · show s.w.nextInstance + 1 ≤ s.w.maxInstances
        have := claimLimit_le_max s inv
        omega
      · show (s.w.executed ++ s.w.nextInstance :: s.claimedPending).Nodup
        refine List.nodup_middle.mpr (List.nodup_cons.mpr ⟨fun hmem => ?_, inv.nodup⟩)
        exact absurd (inv.lt_next _ hmem) (lt_irrefl _)
      · show ∀ i ∈ s.w.executed ++ s.w.nextInstance :: s.claimedPending,
          i < s.w.nextInstance + 1
        intro i hi
        rcases List.mem_append.mp hi with h1 | h2
        · exact Nat.lt_succ_of_lt (inv.lt_next i (List.mem_append.mpr (Or.inl h1)))
        · rcases List.mem_cons.mp h2 with rfl | h3
          · exact Nat.lt_succ_self _
          · exact Nat.lt_succ_of_lt (inv.lt_next i (List.mem_append.mpr (Or.inr h3)))
  | exec i hm hres hi =>
      refine ⟨inv.next_le_max, inv.max_le, inv.total_le, ?_, ?_, ?_, ?_⟩
      · show s.w.completedInstances + (i :: s.executedPending).length =
          (s.w.executed ++ [i]).length
        have := inv.count_eq
        simp only [List.length_cons, List.length_append, List.length_nil]
        omega
      · show ∀ j ∈ s.w.executed ++ [i], _ ∧ j < s.w.totalInstances
        intro j hj
        rcases List.mem_append.mp hj with h1 | h2
        · exact inv.exec_lt j h1
        · rcases List.mem_singleton.mp h2 with rfl
          exact ⟨hres, hi⟩
      · show ((s.w.executed ++ [i]) ++ s.claimedPending.erase i).Nodup
        have h1 : s.claimedPending.Perm (i :: s.claimedPending.erase i) :=
          List.perm_cons_erase hm
        have h2 : (s.w.executed ++ s.claimedPending).Perm
            (s.w.executed ++ i :: s.claimedPending.erase i) :=
          List.Perm.append_left s.w.executed h1
        have h3 : s.w.executed ++ i :: s.claimedPending.erase i =
            (s.w.executed ++ [i]) ++ s.claimedPending.erase i := by
          simp
        exact h3 ▸ ((h2.nodup_iff).mp inv.nodup)
      · show ∀ j ∈ (s.w.executed ++ [i]) ++ s.claimedPending.erase i,
          j < s.w.nextInstance
        intro j hj
        rcases List.mem_append.mp hj with h1 | h2
        · rcases List.mem_append.mp h1 with h3 | h4
          · exact inv.lt_next j (List.mem_append.mpr (Or.inl h3))
          · rcases List.mem_singleton.mp h4 with rfl
            exact inv.lt_next j (List.mem_append.mpr (Or.inr hm))
        · exact inv.lt_next j
            (List.mem_append.mpr (Or.inr (List.mem_of_mem_erase h2)))
  | discard i hm hres hi =>
      refine ⟨inv.next_le_max, inv.max_le, inv.total_le, inv.count_eq, inv.exec_lt, ?_, ?_⟩
      · show (s.w.executed ++ s.claimedPending.erase i).Nodup
        exact inv.nodup.sublist
          (List.Sublist.append_left (List.erase_sublist i s.claimedPending) _)
      · show ∀ j ∈ s.w.executed ++ s.claimedPending.erase i, j < s.w.nextInstance
        intro j hj
        rcases List.mem_append.mp hj with h1 | h2
        · exact inv.lt_next j (List.mem_append.mpr (Or.inl h1))
        · exact inv.lt_next j
            (List.mem_append.mpr (Or.inr (List.mem_of_mem_erase h2)))
  | complete i hm =>
      refine ⟨inv.next_le_max, inv.max_le, inv.total_le, ?_, inv.exec_lt, inv.nodup,
        inv.lt_next⟩
      show s.w.completedInstances + 1 + (s.executedPending.erase i).length =
        s.w.executed.length
      have hlen := List.length_erase_of_mem hm
      have hpos := List.length_pos_of_mem hm
      have := inv.count_eq
      omega
  | resolve n hu hn hne =>
      refine ⟨inv.next_le_max, inv.max_le, Or.inr hn, inv.count_eq, ?_, inv.nodup,
        inv.lt_next⟩
      intro i hi
      exact absurd hu (inv.exec_lt i hi).1

/-- Every reachable workload state satisfies the invariant. -/
theorem winv_reach (s : WorkloadSys) (h : WReach s) : WInv s := by
  induction h with
  | init total maxI hmax htot => exact winv_init total maxI hmax htot
  | step s s' h hs ih => exact winv_step s s' ih hs

/-- The executed-index list never holds duplicates. -/
theorem executed_nodup (s : WorkloadSys) (inv : WInv s) : s.w.executed.Nodup :=
  inv.nodup.of_append_left

/-- At most `totalInstances` executions can ever be recorded. -/
theorem executed_length_le_total (s : WorkloadSys) (inv : WInv s) :
    s.w.executed.length ≤ s.w.totalInstances :=
  length_le_of_nodup_lt _ _ (executed_nodup s inv) (fun i hi => (inv.exec_lt i hi).2)

/-- No more executions than claims were handed out. -/
theorem executed_length_le_next (s : WorkloadSys) (inv : WInv s) :
    s.w.executed.length ≤ s.w.nextInstance :=
  length_le_of_nodup_lt _ _ (executed_nodup s inv)
    (fun i hi => inv.lt_next i (List.mem_append.mpr (Or.inl hi)))

/-- At completion no execute-token is outstanding and the executed indices
are exactly `[0, totalInstances)`. -/
theorem complete_executed (s : WorkloadSys) (inv : WInv s) (hc : s.w.IsComplete) :
    s.executedPending = [] ∧ s.w.executed.length = s.w.totalInstances ∧
      s.w.executed.toFinset = Finset.range s.w.totalInstances := by
  obtain ⟨hres, hcount⟩ := hc
  have hle : s.w.executed.length ≤ s.w.totalInstances := executed_length_le_total s inv
  have hcount_eq := inv.count_eq
  have hep : s.executedPending = [] := by
    have : s.executedPending.length = 0 := by omega
    exact List.length_eq_zero.mp this
  have hlen : s.w.executed.length = s.w.totalInstances := by omega
  refine ⟨hep, hlen, ?_⟩
  apply Finset.eq_of_subset_of_card_le
  · intro i hi
    rw [List.mem_toFinset] at hi
    exact Finset.mem_range.mpr (inv.exec_lt i hi).2
  · rw [Finset.card_range, List.toFinset_card_of_nodup (executed_nodup s inv), hlen]

/-- Once complete, every instance index has been handed out. -/
theorem next_ge_total_of_complete (s : WorkloadSys) (inv : WInv s)
    (hc : s.w.IsComplete) : s.w.totalInstances ≤ s.w.nextInstance := by
  obtain ⟨-, hlen, -⟩ := complete_executed s inv hc
  have := executed_length_le_next s inv
  omega

/-- C1: for every workload whose totalInstances is resolved to N, after any
interleaving of Join calls from any number of threads has brought the
workload to completion (its completed-instance counter reached N), each
instance index in [0, N) has had the workload's execute function applied to
its payload exactly once. -/
theorem c1_exactly_once_execution (s : WorkloadSys) (N : Nat) (hr : WReach s)
    (htot : s.w.totalInstances = N) (hres : s.w.Resolved)
    (hcomp : s.w.completedInstances = N) :
    ∀ i < N, s.w.executed.count i = 1 := by
  have inv := winv_reach s hr
  have hc : s.w.IsComplete := ⟨hres, by rw [htot, hcomp]⟩
  obtain ⟨-, -, hfin⟩ := complete_executed s inv hc
  intro i hi
  have hmem : i ∈ s.w.executed := by
    rw [← List.mem_toFinset, hfin, htot]
    exact Finset.mem_range.mpr hi
  exact List.count_eq_one_of_mem (executed_nodup s inv) hmem

/-- A two-instance workload driven to completion by a single thread:
claim 0, execute 0, count 0, claim 1, execute 1, count 1. -/
theorem wreach_two : WReach ⟨⟨2, 2, 2, 2, [0, 1], true⟩, [], []⟩ := by
  have h0 : WReach ⟨⟨0, 0, 2, 2, [], false⟩, [], []⟩ :=
    WReach.init 2 2 (by decide) (Or.inr (by decide))
  have h1 : WReach ⟨⟨1, 0, 2, 2, [], false⟩, [0], []⟩ :=
    WReach.step _ _ h0 (WStep.claim _ (by decide))
  have h2 : WReach ⟨⟨1, 0, 2, 2, [0], false⟩, [], [0]⟩ :=
    WReach.step _ _ h1 (WStep.exec _ 0 (by decide) (by decide) (by decide))
  have h3 : WReach ⟨⟨1, 1, 2, 2, [0], false⟩, [], []⟩ :=
    WReach.step _ _ h2 (WStep.complete _ 0 (by decide))
  have h4 : WReach ⟨⟨2, 1, 2, 2, [0], false⟩, [1], []⟩ :=
    WReach.step _ _ h3 (WStep.claim _ (by decide))
  have h5 : WReach ⟨⟨2, 1, 2, 2, [0, 1], false⟩, [], [1]⟩ :=
    WReach.step _ _ h4 (WStep.exec _ 1 (by decide) (by decide) (by decide))
  exact WReach.step _ _ h5 (WStep.complete _ 1 (by decide))

/-- Witness for C1 on the concrete completed two-instance workload. -/
theorem c1_witness :
    (⟨⟨2, 2, 2, 2, [0, 1], true⟩, [], []⟩ : WorkloadSys).w.executed.count 0 = 1 ∧
    (⟨⟨2, 2, 2, 2, [0, 1], true⟩, [], []⟩ : WorkloadSys).w.executed.count 1 = 1 :=
  ⟨c1_exactly_once_execution _ 2 wreach_two rfl (by decide) rfl 0 (by decide),
   c1_exactly_once_execution _ 2 wreach_two rfl (by decide) rfl 1 (by decide)⟩

/-- Every reachable Simple-operation state satisfies the Simple invariant. -/
theorem sinv_reach (s : SimpleSys) (h : SReach s) : SInv s := by
  induction h with
  | init fr r0 =>
      exact ⟨fun _ => ⟨rfl, rfl, rfl⟩, by dsimp only; omega, fun hc => by simp at hc,
        fun hc => by simp at hc⟩
  | step s s' h hs ih =>
      cases hs with
      | claim hj =>
          obtain ⟨hcl, hex, hcomp⟩ := ih.not_joined hj
          refine ⟨fun hj2 => by simp at hj2, by dsimp only; omega, fun hc => ?_,
            fun hc => rfl⟩
          exact absurd hc (by simp [hcomp])
      | finish hcl =>
          have hone := ih.at_most_one
          have hj : s.st.joined = true := by
            cases hb : s.st.joined
            · exact absurd (ih.not_joined hb).1 (by omega)
            · rfl
          exact ⟨fun hj2 => by simp [hj] at hj2, by dsimp only; omega,
            fun _ => ⟨by dsimp only; omega, rfl⟩, fun _ => hj⟩

/-- C2: for a Simple operation, across any interleaving of Join calls from
any number of threads, the bound function is invoked at most once, never
before the joined flag is claimed, and once the operation is marked complete
it has been invoked exactly once with its result stored, so every caller
observes that same stored result. -/
theorem c2_simple_single_execution (s : SimpleSys) (hr : SReach s) :
    s.execCount ≤ 1 ∧
    (s.st.joined = false → s.execCount = 0) ∧
    (s.st.complete = true → s.execCount = 1 ∧ s.st.result = s.fnResult) := by
  have inv := sinv_reach s hr
  exact ⟨by have := inv.at_most_one; omega, fun h => (inv.not_joined h).2.1,
    inv.complete_result⟩

/-- Witness for C2: one thread claims and executes a Simple operation whose
bound function returns error code 7. -/
theorem c2_witness :
    (⟨⟨true, .errCode 7, true⟩, .errCode 7, 1, 0⟩ : SimpleSys).execCount ≤ 1 ∧
    ((⟨⟨true, .errCode 7, true⟩, .errCode 7, 1, 0⟩ : SimpleSys).st.joined = false →
      (⟨⟨true, .errCode 7, true⟩, .errCode 7, 1, 0⟩ : SimpleSys).execCount = 0) ∧
    ((⟨⟨true, .errCode 7, true⟩, .errCode 7, 1, 0⟩ : SimpleSys).st.complete = true →
      (⟨⟨true, .errCode 7, true⟩, .errCode 7, 1, 0⟩ : SimpleSys).execCount = 1 ∧
      (⟨⟨true, .errCode 7, true⟩, .errCode 7, 1, 0⟩ : SimpleSys).st.result =
        (⟨⟨true, .errCode 7, true⟩, .errCode 7, 1, 0⟩ : SimpleSys).fnResult) :=
  c2_simple_single_execution _
    (SReach.step _ _ (SReach.step _ _ (SReach.init (.errCode 7) .success)
      (SStep.claim _ rfl)) (SStep.finish _ (by decide)))

/-- C3: once an operation is complete, a Join returns success and leaves it
unchanged - stated both for the coarse single-call view of Join and for
every individual concurrent step: no step taken from a reachable completed
workload state alters the workload, in particular not its
completed-instance counter. -/
theorem c3_idempotent_complete :
    (∀ (fr : VkStatus) (op : DeferredHostOperation), opCompleteB op = true →
        op.Join fr = (.success, op)) ∧
    (∀ s s' : WorkloadSys, WReach s → s.w.IsComplete → WStep s s' → s'.w = s.w) := by
  constructor
  · intro fr op h
    simp [DeferredHostOperation.Join, h]
  · intro s s' hr hc hs
    have inv := winv_reach s hr
    obtain ⟨hres, hcomp⟩ := hc
    obtain ⟨hep, hlen, hfin⟩ := complete_executed s inv ⟨hres, hcomp⟩
    have hnext : s.w.totalInstances ≤ s.w.nextInstance :=
      next_ge_total_of_complete s inv ⟨hres, hcomp⟩
    cases hs with
    | claim hg =>
        exfalso
        unfold claimLimit at hg
        rw [if_neg hres] at hg
        omega
    | exec i hm hres2 hi =>
        exfalso
        have hmem : i ∈ s.w.executed := by
          rw [← List.mem_toFinset, hfin]
          exact Finset.mem_range.mpr hi
        have hdisj := (List.nodup_append.mp inv.nodup).2.2
        exact hdisj hmem hm
    | discard i hm hres2 hi => rfl
    | complete i hm =>
        exfalso
        rw [hep] at hm
        exact absurd hm (List.not_mem_nil i)
    | resolve n hu hn hne => exact absurd hu hres

/-- A workload created with unknown count, one stale claim handed out, then
resolved to zero instances: complete with the claim still pending. -/
theorem wreach_resolved_zero : WReach ⟨⟨1, 0, 0, 1, [], false⟩, [0], []⟩ := by
  have h0 : WReach ⟨⟨0, 0, UINT_MAX, 1, [], false⟩, [], []⟩ :=
    WReach.init UINT_MAX 1 (by decide) (Or.inl rfl)
  have h1 : WReach ⟨⟨1, 0, UINT_MAX, 1, [], false⟩, [0], []⟩ :=
    WReach.step _ _ h0 (WStep.claim _ (by decide))
  exact WReach.step _ _ h1 (WStep.resolve _ 0 rfl (by decide) (by decide))

/-- Witness for C3: a complete Simple operation and, for the concurrent
part, the discard step a stale claimant takes on a completed workload. -/
theorem c3_witness :
    DeferredHostOperation.Join .success ⟨.simple ⟨true, .success, true⟩, []⟩ =
      (.success, ⟨.simple ⟨true, .success, true⟩, []⟩) ∧
    (⟨⟨1, 0, 0, 1, [], false⟩, [], []⟩ : WorkloadSys).w =
      (⟨⟨1, 0, 0, 1, [], false⟩, [0], []⟩ : WorkloadSys).w :=
  ⟨c3_idempotent_complete.1 .success ⟨.simple ⟨true, .success, true⟩, []⟩ rfl,
   c3_idempotent_complete.2 _ _ wreach_resolved_zero (by decide)
     (WStep.discard _ 0 (by decide) (by decide) (by decide))⟩

/-- Counting the naturals in `[0, n)` at or above `k`. -/
theorem filter_range_le_length (n k : Nat) :
    ((List.range n).filter (fun i => k ≤ i)).length = n - k := by
  induction n with
  | zero => simp
  | succ m ih =>
      rw [List.range_succ, List.filter_append, List.length_append, ih]
      by_cases h : k ≤ m
      · simp [List.filter_singleton, h]
        omega
      · simp [List.filter_singleton, h]
        omega

/-- For a resolved workload the remaining-concurrency estimate equals the
exact number of not-yet-claimed instance indices. -/
theorem remaining_eq_unclaimed (w : DeferredWorkload) (hres : w.Resolved) :
    workloadRemaining w = unclaimedCount w := by
  unfold workloadRemaining unclaimedCount
  rw [if_neg hres, filter_range_le_length]

/-- A complete workload has no remaining concurrency. -/
theorem remaining_zero_of_complete (s : WorkloadSys) (inv : WInv s)
    (hc : s.w.IsComplete) : workloadRemaining s.w = 0 := by
  have hnext := next_ge_total_of_complete s inv hc
  unfold workloadRemaining
  rw [if_neg hc.1]
  omega

/-- C4: GetMaxConcurrency returns 1 for a not-yet-joined Simple operation
and 0 for a joined (hence also a completed) one; for workload variants each
workload contributes no more than its number of not-yet-claimed instances
(capped by maxInstances while the count is unresolved), and once every
workload of a workload-bearing operation is complete the value is 0. -/
theorem c4_max_concurrency_bound :
    (∀ (st : SimpleState) (wls : List DeferredWorkload),
        DeferredHostOperation.GetMaxConcurrency ⟨.simple st, wls⟩ =
          if st.joined then 0 else 1) ∧
    (∀ s : WorkloadSys, WReach s →
        workloadRemaining s.w ≤
          if s.w.totalInstances = UINT_MAX then s.w.maxInstances
          else unclaimedCount s.w) ∧
    (∀ s : WorkloadSys, WReach s → s.w.IsComplete → workloadRemaining s.w = 0) ∧
    (∀ (a : AccelBuildState) (wls : List DeferredWorkload),
        (∀ wl ∈ wls, wl.IsComplete ∧ ∃ s : WorkloadSys, WReach s ∧ s.w = wl) →
        DeferredHostOperation.GetMaxConcurrency ⟨.accelBuild a, wls⟩ = 0) ∧
    (∀ (r : RayTracingPipelineCreateState) (wls : List DeferredWorkload),
        (∀ wl ∈ wls, wl.IsComplete ∧ ∃ s : WorkloadSys, WReach s ∧ s.w = wl) →
        DeferredHostOperation.GetMaxConcurrency ⟨.rtPipelineCreate r, wls⟩ = 0) ∧
    (∀ sys : SimpleSys, SReach sys → sys.st.complete = true →
        ∀ wls : List DeferredWorkload,
          DeferredHostOperation.GetMaxConcurrency ⟨.simple sys.st, wls⟩ = 0) := by
  have hwl : ∀ s : WorkloadSys, WReach s →
      workloadRemaining s.w ≤
        if s.w.totalInstances = UINT_MAX then s.w.maxInstances
        else unclaimedCount s.w := by
    intro s hr
    have inv := winv_reach s hr
    by_cases h : s.w.totalInstances = UINT_MAX
    · rw [if_pos h]
      unfold workloadRemaining
      rw [if_pos h]
      omega
    · rw [if_neg h, remaining_eq_unclaimed s.w h]
  have hsum : ∀ wls : List DeferredWorkload,
      (∀ wl ∈ wls, wl.IsComplete ∧ ∃ s : WorkloadSys, WReach s ∧ s.w = wl) →
      (wls.map workloadRemaining).sum = 0 := by
    intro wls h
    apply List.sum_eq_zero
    intro x hx
    obtain ⟨wl, hwl2, rfl⟩ := List.mem_map.mp hx
    obtain ⟨hc, s, hr, rfl⟩ := h wl hwl2
    exact remaining_zero_of_complete s (winv_reach s hr) hc
  refine ⟨fun st wls => rfl, hwl, ?_, ?_, ?_, ?_⟩
  · intro s hr hc
    exact remaining_zero_of_complete s (winv_reach s hr) hc
  · intro a wls h
    show (wls.map workloadRemaining).sum = 0
    exact hsum wls h
  · intro r wls h
    show (wls.map workloadRemaining).sum = 0
    exact hsum wls h
  · intro sys hr hc wls
    have hj := (sinv_reach sys hr).complete_joined hc
    show (if sys.st.joined then 0 else 1) = 0
    rw [if_pos hj]

/-- Witness for C4 at concrete states: an unjoined Simple operation, the
completed two-instance workload, and one-workload operations built from it. -/
theorem c4_witness :
    DeferredHostOperation.GetMaxConcurrency ⟨.simple ⟨false, .success, false⟩, []⟩ =
      (if (false : Bool) then 0 else 1) ∧
    workloadRemaining (⟨⟨2, 2, 2, 2, [0, 1], true⟩, [], []⟩ : WorkloadSys).w ≤
      (if (⟨2, 2, 2, 2, [0, 1], true⟩ : DeferredWorkload).totalInstances = UINT_MAX
        then 2 else unclaimedCount ⟨2, 2, 2, 2, [0, 1], true⟩) ∧
    workloadRemaining (⟨⟨2, 2, 2, 2, [0, 1], true⟩, [], []⟩ : WorkloadSys).w = 0 ∧
    DeferredHostOperation.GetMaxConcurrency
      ⟨.accelBuild ⟨0, 2, 0, 2⟩, [⟨2, 2, 2, 2, [0, 1], true⟩]⟩ = 0 ∧
    DeferredHostOperation.GetMaxConcurrency
      ⟨.rtPipelineCreate ⟨0, 2, .success, 0, 2⟩, [⟨2, 2, 2, 2, [0, 1], true⟩]⟩ = 0 ∧
    DeferredHostOperation.GetMaxConcurrency
      ⟨.simple ⟨true, .errCode 7, true⟩, []⟩ = 0 := by
  have hone : ∀ wl ∈ [(⟨2, 2, 2, 2, [0, 1], true⟩ : DeferredWorkload)],
      wl.IsComplete ∧ ∃ s : WorkloadSys, WReach s ∧ s.w = wl := by
    intro wl hwl
    rw [List.mem_singleton] at hwl
    subst hwl
    exact ⟨by decide, ⟨⟨⟨2, 2, 2, 2, [0, 1], true⟩, [], []⟩, wreach_two, rfl⟩⟩
  have hsr : SReach ⟨⟨true, .errCode 7, true⟩, .errCode 7, 1, 0⟩ :=
    SReach.step _ _ (SReach.step _ _ (SReach.init (.errCode 7) .success)
      (SStep.claim _ rfl)) (SStep.finish _ (by decide))
  exact ⟨c4_max_concurrency_bound.1 ⟨false, .success, false⟩ [],
    c4_max_concurrency_bound.2.1 _ wreach_two,
    c4_max_concurrency_bound.2.2.1 _ wreach_two (by decide),
    c4_max_concurrency_bound.2.2.2.1 ⟨0, 2, 0, 2⟩ _ hone,
    c4_max_concurrency_bound.2.2.2.2.1 ⟨0, 2, .success, 0, 2⟩ _ hone,
    c4_max_concurrency_bound.2.2.2.2.2 _ hsr rfl []⟩

/-- Every reachable pipeline-creation state satisfies the failure-aggregation
invariant: finalResult is the first-observed failure code (or success). -/
theorem rtinv_reach (s : RtSys) (h : RtReach s) : RtInv s := by
  induction h with
  | init n => exact ⟨rfl, by simp, by dsimp only; omega⟩
  | step s s' h hs ih =>
      cases hs with
      | finishOk hcl =>
          exact ⟨ih.final_eq, ih.no_success, by have := ih.completed_le; dsimp only; omega⟩
      | finishFail code hcl hc =>
          refine ⟨?_, ?_, by have := ih.completed_le; dsimp only; omega⟩
          · show (if s.r.finalResult = .success then code else s.r.finalResult) =
              (s.failures ++ [code]).headD .success
            cases hf : s.failures with
            | nil =>
                have hsucc : s.r.finalResult = .success := by
                  have hfe := ih.final_eq
                  rw [hf] at hfe
                  exact hfe
                rw [if_pos hsucc]
                rfl
            | cons a as =>
                have hne : s.r.finalResult ≠ .success := by
                  have hfe := ih.final_eq
                  rw [hf] at hfe
                  rw [hfe]
                  exact ih.no_success a (by rw [hf]; exact List.mem_cons_self a as)
                rw [if_neg hne]
                have hfe := ih.final_eq
                rw [hf] at hfe
                exact hfe
          · intro c hcmem
            rcases List.mem_append.mp hcmem with h1 | h2
            · exact ih.no_success c h1
            · rcases List.mem_singleton.mp h2 with rfl
              exact hc

/-- C5: GetOperationResult is the not-ready code whenever the operation has
not completed; once complete, a failure-tracking variant aggregates to
success exactly when zero instances failed, and otherwise to the
first-observed failure code (constantly the memory-map failure for the
acceleration-structure build variant). -/
theorem c5_operation_result :
    (∀ op : DeferredHostOperation, opCompleteB op = false →
        op.GetOperationResult = .notReady) ∧
    (∀ (sys : RtSys) (wls : List DeferredWorkload), RtReach sys →
        sys.r.completed = sys.r.infoCount →
        DeferredHostOperation.GetOperationResult ⟨.rtPipelineCreate sys.r, wls⟩ =
            sys.failures.headD .success ∧
          (DeferredHostOperation.GetOperationResult ⟨.rtPipelineCreate sys.r, wls⟩ =
              .success ↔ sys.failures = [])) ∧
    (∀ (a : AccelBuildState) (wls : List DeferredWorkload), AccelReach a →
        a.completed = a.infoCount →
        ((DeferredHostOperation.GetOperationResult ⟨.accelBuild a, wls⟩ = .success ↔
            a.failedMaps = 0) ∧
          (a.failedMaps ≠ 0 →
            DeferredHostOperation.GetOperationResult ⟨.accelBuild a, wls⟩ =
              .memoryMapFailed))) := by
  refine ⟨?_, ?_, ?_⟩
  · intro op h
    obtain ⟨st, wls⟩ := op
    cases st <;> simp_all [DeferredHostOperation.GetOperationResult, opCompleteB]
  · intro sys wls hr hcomp
    have inv := rtinv_reach sys hr
    have hres : DeferredHostOperation.GetOperationResult
        ⟨.rtPipelineCreate sys.r, wls⟩ = sys.failures.headD .success := by
      show (if sys.r.completed = sys.r.infoCount then sys.r.finalResult
        else .notReady) = sys.failures.headD .success
      rw [if_pos hcomp]
      exact inv.final_eq
    refine ⟨hres, ?_⟩
    rw [hres]
    cases hf : sys.failures with
    | nil => simp
    | cons a as =>
        simp only [List.headD_cons]
        constructor
        · intro ha
          exact absurd ha (inv.no_success a (by rw [hf]; exact List.mem_cons_self a as))
        · intro hcontra
          exact absurd hcontra (by simp)
  · intro a wls hr hcomp
    constructor
    · show ((if a.completed = a.infoCount then
          if a.failedMaps = 0 then VkStatus.success else .memoryMapFailed
        else .notReady) = .success) ↔ a.failedMaps = 0
      rw [if_pos hcomp]
      by_cases hf : a.failedMaps = 0
      · simp [hf]
      · simp [hf]
    · intro hf
      show (if a.completed = a.infoCount then
          if a.failedMaps = 0 then VkStatus.success else .memoryMapFailed
        else .notReady) = .memoryMapFailed
      rw [if_pos hcomp, if_neg hf]

/-- Witness for C5: a not-yet-complete operation, a completed two-instance
pipeline creation whose first instance failed with code 3, and a completed
one-instance acceleration build with one failed map. -/
theorem c5_witness :
    DeferredHostOperation.GetOperationResult
        ⟨.rtPipelineCreate ⟨0, 1, .success, 0, 2⟩, []⟩ = .notReady ∧
    DeferredHostOperation.GetOperationResult
        ⟨.rtPipelineCreate ⟨0, 2, .errCode 3, 1, 2⟩, []⟩ =
      ([VkStatus.errCode 3].headD .success) ∧
    (DeferredHostOperation.GetOperationResult
        ⟨.rtPipelineCreate ⟨0, 2, .errCode 3, 1, 2⟩, []⟩ = .success ↔
      ([VkStatus.errCode 3] : List VkStatus) = []) ∧
    (DeferredHostOperation.GetOperationResult ⟨.accelBuild ⟨0, 1, 1, 1⟩, []⟩ =
        .success ↔ (1 : Nat) = 0) ∧
    DeferredHostOperation.GetOperationResult ⟨.accelBuild ⟨0, 1, 1, 1⟩, []⟩ =
      .memoryMapFailed := by
  have hrt : RtReach ⟨⟨0, 2, .errCode 3, 1, 2⟩, [.errCode 3]⟩ := by
    have h0 : RtReach ⟨⟨0, 0, .success, 0, 2⟩, []⟩ := RtReach.init 2
    have h1 : RtReach ⟨⟨0, 1, .errCode 3, 1, 2⟩, [.errCode 3]⟩ :=
      RtReach.step _ _ h0 (RtStep.finishFail _ (.errCode 3) (by decide) (by decide))
    exact RtReach.step _ _ h1 (RtStep.finishOk _ (by decide))
  have hacc : AccelReach ⟨0, 1, 1, 1⟩ :=
    AccelReach.step _ _ (AccelReach.init 1) (AccelStep.finish _ true (by decide))
  obtain ⟨hrt1, hrt2⟩ := c5_operation_result.2.1 ⟨⟨0, 2, .errCode 3, 1, 2⟩,
    [.errCode 3]⟩ [] hrt rfl
  obtain ⟨hac1, hac2⟩ := c5_operation_result.2.2 ⟨0, 1, 1, 1⟩ [] hacc rfl
  exact ⟨c5_operation_result.1 ⟨.rtPipelineCreate ⟨0, 1, .success, 0, 2⟩, []⟩ rfl,
    hrt1, hrt2, hac1, hac2 (by decide)⟩

/-- C6: Destroy while some thread is inside Join on the handle fails with
the in-use error, leaving the handle and its workloads intact; with no
joiner it releases the workloads and the handle. -/
theorem c6_destroy_in_use (op : DeferredHostOperation) (j : Nat) :
    (0 < j → op.Destroy j = (.inUse, some op)) ∧
    op.Destroy 0 = (.success, none) := by
  constructor
  · intro hj
    unfold DeferredHostOperation.Destroy
    rw [if_pos (by omega)]
  · unfold DeferredHostOperation.Destroy
    simp

/-- Witness for C6 at a concrete handle with one active joiner. -/
theorem c6_witness :
    DeferredHostOperation.Destroy ⟨.unassigned, [emptyWorkload]⟩ 1 =
      (.inUse, some ⟨.unassigned, [emptyWorkload]⟩) ∧
    DeferredHostOperation.Destroy ⟨.unassigned, [emptyWorkload]⟩ 0 =
      (.success, none) :=
  ⟨(c6_destroy_in_use ⟨.unassigned, [emptyWorkload]⟩ 1).1 (by decide),
   (c6_destroy_in_use ⟨.unassigned, [emptyWorkload]⟩ 0).2⟩

/-- C7: GenerateWorkloads either fails with the out-of-memory condition and
leaves the operation exactly as it was - no partial allocation retained -
or succeeds leaving the operation owning exactly count workload slots with
the rest of its state untouched. -/
theorem c7_generate_workloads_rollback (op : DeferredHostOperation) (count : Nat) :
    op.GenerateWorkloads count false = (.outOfHostMemory, op) ∧
    (op.GenerateWorkloads count true).1 = .success ∧
    (op.GenerateWorkloads count true).2.WorkloadCount = count ∧
    (op.GenerateWorkloads count true).2.state = op.state := by
  refine ⟨rfl, rfl, ?_, rfl⟩
  simp [DeferredHostOperation.GenerateWorkloads, DeferredHostOperation.WorkloadCount]

/-- A workload created with unknown count and two claims handed out before
the count resolves to 1: reachable, resolved, and nextInstance exceeds
totalInstances. -/
theorem wreach_overclaimed : WReach ⟨⟨2, 0, 1, 2, [], false⟩, [1, 0], []⟩ := by
  have h0 : WReach ⟨⟨0, 0, UINT_MAX, 2, [], false⟩, [], []⟩ :=
    WReach.init UINT_MAX 2 (by decide) (Or.inl rfl)
  have h1 : WReach ⟨⟨1, 0, UINT_MAX, 2, [], false⟩, [0], []⟩ :=
    WReach.step _ _ h0 (WStep.claim _ (by decide))
  have h2 : WReach ⟨⟨2, 0, UINT_MAX, 2, [], false⟩, [1, 0], []⟩ :=
    WReach.step _ _ h1 (WStep.claim _ (by decide))
  exact WReach.step _ _ h2 (WStep.resolve _ 1 rfl (by decide) (by decide))

/-- C8 as stated is false: in a reachable, resolved workload state the
claim counter nextInstance can exceed totalInstances, because claims are
handed out up to maxInstances while the count is unresolved and the count
may then resolve below the indices already claimed. -/
theorem c8_counters_counterexample :
    WReach ⟨⟨2, 0, 1, 2, [], false⟩, [1, 0], []⟩ ∧
    (⟨⟨2, 0, 1, 2, [], false⟩, [1, 0], []⟩ : WorkloadSys).w.Resolved ∧
    ¬ ((⟨⟨2, 0, 1, 2, [], false⟩, [1, 0], []⟩ : WorkloadSys).w.nextInstance ≤
        (⟨⟨2, 0, 1, 2, [], false⟩, [1, 0], []⟩ : WorkloadSys).w.totalInstances) :=
  ⟨wreach_overclaimed, by decide, by decide⟩

/-- C8 amended: in every reachable workload state, once totalInstances is
resolved the counters satisfy completedInstances ≤ totalInstances ≤
maxInstances, nextInstance is bounded by maxInstances (it may exceed
totalInstances when the count resolves below indices already claimed), and
nextInstance and completedInstances are monotonically non-decreasing across
every step. -/
theorem c8_counters_amended (s s' : WorkloadSys) (hr : WReach s) :
    (s.w.Resolved → s.w.completedInstances ≤ s.w.totalInstances ∧
        s.w.totalInstances ≤ s.w.maxInstances) ∧
    s.w.nextInstance ≤ s.w.maxInstances ∧
    (WStep s s' → s.w.nextInstance ≤ s'.w.nextInstance ∧
        s.w.completedInstances ≤ s'.w.completedInstances) := by
  have inv := winv_reach s hr
  refine ⟨fun hres => ⟨?_, ?_⟩, inv.next_le_max, fun hs => ?_⟩
  · have h1 := executed_length_le_total s inv
    have h2 := inv.count_eq
    omega
  · rcases inv.total_le with h | h
    · exact absurd h hres
    · exact h
  · cases hs with
    | claim hg => exact ⟨by dsimp only; omega, le_rfl⟩
    | exec i hm hres hi => exact ⟨le_rfl, le_rfl⟩
    | discard i hm hres hi => exact ⟨le_rfl, le_rfl⟩
    | complete i hm => exact ⟨le_rfl, by dsimp only; omega⟩
    | resolve n hu hn hne => exact ⟨le_rfl, le_rfl⟩

/-- Witness for the amended C8 on the overclaimed state and its discard
step. -/
theorem c8_witness :
    ((⟨⟨2, 0, 1, 2, [], false⟩, [1, 0], []⟩ : WorkloadSys).w.Resolved →
      (⟨⟨2, 0, 1, 2, [], false⟩, [1, 0], []⟩ : WorkloadSys).w.completedInstances ≤
          (⟨⟨2, 0, 1, 2, [], false⟩, [1, 0], []⟩ : WorkloadSys).w.totalInstances ∧
        (⟨⟨2, 0, 1, 2, [], false⟩, [1, 0], []⟩ : WorkloadSys).w.totalInstances ≤
          (⟨⟨2, 0, 1, 2, [], false⟩, [1, 0], []⟩ : WorkloadSys).w.maxInstances) ∧
    (⟨⟨2, 0, 1, 2, [], false⟩, [1, 0], []⟩ : WorkloadSys).w.nextInstance ≤
      (⟨⟨2, 0, 1, 2, [], false⟩, [1, 0], []⟩ : WorkloadSys).w.maxInstances ∧
    (WStep ⟨⟨2, 0, 1, 2, [], false⟩, [1, 0], []⟩ ⟨⟨2, 0, 1, 2, [], false⟩, [0], []⟩ →
      (⟨⟨2, 0, 1, 2, [], false⟩, [1, 0], []⟩ : WorkloadSys).w.nextInstance ≤
          (⟨⟨2, 0, 1, 2, [], false⟩, [0], []⟩ : WorkloadSys).w.nextInstance ∧
        (⟨⟨2, 0, 1, 2, [], false⟩, [1, 0], []⟩ : WorkloadSys).w.completedInstances ≤
          (⟨⟨2, 0, 1, 2, [], false⟩, [0], []⟩ : WorkloadSys).w.completedInstances) :=
  c8_counters_amended _ _ wreach_overclaimed

/-- C9: the workload accessor has the precondition idx < WorkloadCount(),
carried as an explicit hypothesis of the embedding; under it the accessor
agrees with safe indexing into the owned workload sequence (in particular
returning the idx-th freshly generated slot after GenerateWorkloads), and
out of range the owned sequence simply has no element - the branch is
unguarded in the source. -/
theorem c9_workload_access_precondition (op : DeferredHostOperation) (idx : Nat) :
    (∀ h : idx < op.WorkloadCount,
        op.workloads[idx]? = some (op.Workload idx h)) ∧
    (op.WorkloadCount ≤ idx → op.workloads[idx]? = none) ∧
    (∀ count : Nat, idx < count →
        ((op.GenerateWorkloads count true).2).workloads[idx]? = some emptyWorkload) := by
  refine ⟨?_, ?_, ?_⟩
  · intro h
    rw [List.getElem?_eq_getElem h]
    rfl
  · intro h
    exact List.getElem?_eq_none h
  · intro count hc
    show (List.replicate count emptyWorkload)[idx]? = some emptyWorkload
    rw [List.getElem?_eq_getElem (by simpa using hc)]
    simp

/-- Witness for C9 on a one-workload operation at index 0 and the
out-of-range index 1. -/
theorem c9_witness :
    (⟨.unassigned, [emptyWorkload]⟩ : DeferredHostOperation).workloads[0]? =
      some (DeferredHostOperation.Workload ⟨.unassigned, [emptyWorkload]⟩ 0
        (by decide)) ∧
    (⟨.unassigned, [emptyWorkload]⟩ : DeferredHostOperation).workloads[1]? = none ∧
    ((DeferredHostOperation.GenerateWorkloads ⟨.unassigned, []⟩ 3 true).2).workloads[0]? =
      some emptyWorkload :=
  ⟨(c9_workload_access_precondition ⟨.unassigned, [emptyWorkload]⟩ 0).1 (by decide),
   (c9_workload_access_precondition ⟨.unassigned, [emptyWorkload]⟩ 1).2.1 (by decide),
   (c9_workload_access_precondition ⟨.unassigned, []⟩ 0).2.2 3 (by decide)⟩

/-- C10: the unknown-count sentinel is the concrete value 2^32 - 1; a
workload whose totalInstances is 0 is a no-op - from such a state no step
claims a new instance or executes anything; and a resolved workload can
never represent exactly 2^32 - 1 real instances, that value being reserved
for the sentinel. -/
theorem c10_sentinel_noop (s s' : WorkloadSys) (hr : WReach s) :
    UINT_MAX = 2 ^ 32 - 1 ∧
    (s.w.totalInstances = 0 → s.w.executed = [] ∧
      (WStep s s' → s'.w.nextInstance = s.w.nextInstance ∧ s'.w.executed = [])) ∧
    (s.w.Resolved → s.w.totalInstances < 2 ^ 32 - 1) := by
  have inv := winv_reach s hr
  refine ⟨rfl, fun h0 => ⟨?_, fun hs => ?_⟩, fun hres => ?_⟩
  · rw [List.eq_nil_iff_forall_not_mem]
    intro i hi
    have := (inv.exec_lt i hi).2
    omega
  · have hexe : s.w.executed = [] := by
      rw [List.eq_nil_iff_forall_not_mem]
      intro i hi
      have := (inv.exec_lt i hi).2
      omega
    cases hs with
    | claim hg =>
        exfalso
        unfold claimLimit at hg
        rw [if_neg (by rw [h0]; decide)] at hg
        omega
    | exec i hm hres hi =>
        exfalso
        omega
    | discard i hm hres hi => exact ⟨rfl, hexe⟩
    | complete i hm => exact ⟨rfl, hexe⟩
    | resolve n hu hn hne =>
        exfalso
        rw [h0] at hu
        exact absurd hu.symm (by decide)
  · show s.w.totalInstances < UINT_MAX
    rcases inv.total_le with h | h
    · exact absurd h hres
    · exact lt_of_le_of_ne (le_trans h inv.max_le) hres

/-- Witness for C10 on the resolved-to-zero workload and its discard step. -/
theorem c10_witness :
    UINT_MAX = 2 ^ 32 - 1 ∧
    ((⟨⟨1, 0, 0, 1, [], false⟩, [0], []⟩ : WorkloadSys).w.totalInstances = 0 →
      (⟨⟨1, 0, 0, 1, [], false⟩, [0], []⟩ : WorkloadSys).w.executed = [] ∧
      (WStep ⟨⟨1, 0, 0, 1, [], false⟩, [0], []⟩ ⟨⟨1, 0, 0, 1, [], false⟩, [], []⟩ →
        (⟨⟨1, 0, 0, 1, [], false⟩, [], []⟩ : WorkloadSys).w.nextInstance =
            (⟨⟨1, 0, 0, 1, [], false⟩, [0], []⟩ : WorkloadSys).w.nextInstance ∧
          (⟨⟨1, 0, 0, 1, [], false⟩, [], []⟩ : WorkloadSys).w.executed = [])) ∧
    ((⟨⟨1, 0, 0, 1, [], false⟩, [0], []⟩ : WorkloadSys).w.Resolved →
      (⟨⟨1, 0, 0, 1, [], false⟩, [0], []⟩ : WorkloadSys).w.totalInstances < 2 ^ 32 - 1) :=
  c10_sentinel_noop _ _ wreach_resolved_zero

end Vk
